import Mathlib

set_option maxRecDepth 100000

/-!
# Verification of the EOTS core (`src/lib/eots.ts`, `src/lib/utils.ts`)

A shallow embedding of the EOTS ("extractable one-time signatures") demo
library.  Byte arrays (`Uint8Array`) are modelled as `List Nat` (each entry a
byte value), JavaScript `bigint` arithmetic as `Int`/`Nat` arithmetic, hex
strings as `List Char`, and fallible operations (`throw`) as `Except String`.

The two external collaborators of the core — the curve-arithmetic library
(`@noble/secp256k1`) and the hash function (`@noble/hashes/sha256`) — are not
part of the repository's sources.  Following the specification, which treats
them as external capabilities, the embedding is parameterised over them: a
`Curve` value supplies the scalar-to-point x-coordinate map used by signing,
and an arbitrary `hash : List Nat → List Nat` supplies nonce derivation.
-/

/-- The secp256k1 group order `n` (`CURVE.n` of the curve library). -/
def curveN : Nat :=
  0xFFFFFFFFFFFFFFFFFFFFFFFFFFFFFFFEBAAEDCE6AF48A03BBFD25E8CD0364141

/-- The secp256k1 base-field prime `p` (used only to state that concrete
x-coordinates appearing in counterexamples belong to genuine curve points). -/
def curveP : Nat := 2 ^ 256 - 2 ^ 32 - 977

/-- `x` is the x-coordinate of a genuine point on secp256k1
(`y² = x³ + 7` over the base field). -/
def OnCurveX (x : Nat) : Prop :=
  x < curveP ∧ ∃ y : Nat, y < curveP ∧ (y * y) % curveP = (x ^ 3 + 7) % curveP

/-! ## ScalarCodec (`bytesToNumber`, `numberToBytes` of `eots.ts`,
`hexToBytes`, `bytesToHex`, `isValidHex` of `utils.ts`) -/

/-- `bytesToNumber` (eots.ts): big-endian bytes → integer,
`result = (result << 8) + byte` folded over the array. -/
def bytesToNumber (bytes : List Nat) : Nat :=
  bytes.foldl (fun result byte => result * 256 + byte) 0

/-- Base-16 digit extraction, most significant digit first, accumulator style.
The fuel argument makes the recursion structural (hence kernel-evaluable);
it is unreachable whenever `n ≤ fuel`, which `hexDigits` below guarantees. -/
def hexDigitsAux : Nat → Nat → List Nat → List Nat
  | 0, n, acc => n :: acc
  | fuel + 1, n, acc =>
    if n < 16 then n :: acc else hexDigitsAux fuel (n / 16) (n % 16 :: acc)

/-- Minimal base-16 digit list of `n`, most significant first; `[0]` for `0`
(the digit list of JavaScript `num.toString(16)`). -/
def hexDigits (n : Nat) : List Nat :=
  hexDigitsAux n n []

/-- The hex character (lowercase) for a digit value, as produced by
JavaScript `toString(16)`. -/
def hexDigitChar (d : Nat) : Char :=
  if d < 10 then Char.ofNat (48 + d) else Char.ofNat (87 + d)

/-- Value of a hex character as parsed by `parseInt(·, 16)`;
`none` for a non-hex character.  Character codes: `'0'..'9'` are 48..57,
`'a'..'f'` are 97..102, `'A'..'F'` are 65..70. -/
def hexCharVal (c : Char) : Option Nat :=
  let t := c.toNat
  if 48 ≤ t ∧ t ≤ 57 then some (t - 48)
  else if 97 ≤ t ∧ t ≤ 102 then some (t - 87)
  else if 65 ≤ t ∧ t ≤ 70 then some (t - 55)
  else none

/-- `parseInt(two-character string, 16)` followed by the `Uint8Array` store:
an unparsable leading character gives `NaN`, which the typed array stores
as `0`; a parsable first character followed by an unparsable second parses
the one-character prefix. -/
def pairVal (c1 c2 : Char) : Nat :=
  match hexCharVal c1 with
  | none => 0
  | some v1 =>
    match hexCharVal c2 with
    | none => v1
    | some v2 => 16 * v1 + v2

/-- Successive pairs of a character list to bytes (the loop of `hexToBytes`). -/
def pairsToBytes : List Char → List Nat
  | c1 :: c2 :: rest => pairVal c1 c2 :: pairsToBytes rest
  | [_] => []
  | [] => []

/-- `hexToBytes` (utils.ts): strip a `0x` prefix, left-pad odd-length input
with `'0'`, then parse successive 2-character groups.  Note that it never
fails: malformed lengths are padded, not rejected. -/
def hexToBytes (hex : List Char) : List Nat :=
  let hex := if hex.take 2 = ['0', 'x'] then hex.drop 2 else hex
  let hex := if hex.length % 2 ≠ 0 then '0' :: hex else hex
  pairsToBytes hex

/-- `String.prototype.padStart`: left-pad with a character up to a target
length. -/
def padStart (s : List Char) (target : Nat) (c : Char) : List Char :=
  List.replicate (target - s.length) c ++ s

/-- `numberToBytes` (eots.ts): `num.toString(16).padStart(length * 2, "0")`
fed to `hexToBytes`. -/
def numberToBytes (num : Nat) (length : Nat) : List Nat :=
  hexToBytes (padStart ((hexDigits num).map hexDigitChar) (length * 2) '0')

/-- `bytesToHex` (utils.ts): each byte as `toString(16).padStart(2, "0")`,
concatenated. -/
def bytesToHex (bytes : List Nat) : List Char :=
  (bytes.map fun b => padStart ((hexDigits b).map hexDigitChar) 2 '0').flatten

/-- `isValidHex` (utils.ts): strip `0x`, require hex characters only and,
when an expected byte length is given, exactly twice that many characters
(otherwise a positive even number of characters). -/
def isValidHex (hex : List Char) (expectedLength : Option Nat) : Bool :=
  let cleanHex := if hex.take 2 = ['0', 'x'] then hex.drop 2 else hex
  let isValid := cleanHex.all fun c => (hexCharVal c).isSome
  match expectedLength with
  | some l => isValid && cleanHex.length = l * 2
  | none => isValid && cleanHex.length > 0 && cleanHex.length % 2 = 0

/-! ## ModularArithmetic (`mod`, `modInverse` of `eots.ts`) -/

/-- `mod` (eots.ts): JavaScript `%` (truncated remainder) followed by an
adjustment into `[0, b)` for negative results. -/
def tsMod (a b : Int) : Int :=
  let result := Int.tmod a b
  if result ≥ 0 then result else result + b

/-- The `while (r !== 0)` loop of `modInverse`, with an explicit fuel
argument so that the recursion is structural; the fuel case is unreachable
whenever `r ≤ fuel` (each iteration replaces `r` by `old_r % r < r`), and
`modInverse` below always starts it with `fuel = r`. -/
def egcdGo : Nat → Nat → Nat → Int → Int → Nat × Int
  | _, old_r, 0, old_s, _ => (old_r, old_s)
  | 0, old_r, _, old_s, _ => (old_r, old_s)
  | fuel + 1, old_r, r, old_s, s =>
    egcdGo fuel r (old_r % r) s (old_s - (old_r / r : Nat) * s)

/-- `modInverse` (eots.ts): extended Euclidean algorithm; reduces a negative
input, fails with "Modular inverse does not exist" when the final remainder
exceeds 1, and shifts a negative coefficient into range by one addition. -/
def modInverse (a m : Int) : Except String Int :=
  let a := if a < 0 then tsMod a m else a
  let (g, s) := egcdGo m.toNat a.toNat m.toNat 1 0
  if g > 1 then Except.error "Modular inverse does not exist"
  else
    let old_s : Int := s
    Except.ok (if old_s < 0 then old_s + m else old_s)

/-! ## The EOTS core (`eots.ts`) -/

/-- `EOTSSignature` (types.ts): a pair of byte arrays. -/
structure EOTSSignature where
  r : List Nat
  s : List Nat
deriving DecidableEq, Repr

/-- Modelled from the spec: the CurvePrimitive capability (supplied by the
external curve library, not reimplemented by the repository).  §2: "given a
scalar, returns the corresponding curve point"; the signer uses only the
32-byte x-coordinate slice of the uncompressed encoding, so the model keeps
the scalar-to-x-coordinate map.  A curve point's coordinates are 32-byte
values, whence the bound.  `pubKey` models `getPublicKey(privKey, true)`
(the compressed public-key encoding); the flawed verifier of §9 never
inspects it, so no further structure is needed. -/
structure Curve where
  pointX : Nat → Nat
  pointX_lt : ∀ k, pointX k < 2 ^ 256
  pubKey : Nat → List Nat

/-- Modelled from the spec: the external curve library's verification
routine, as the source invokes it (§9 of the spec): the source concatenates
`r ‖ s` into a 64-byte buffer and feeds it to "a verification routine whose
expected wire format is a different, library-specific encoding", so the
routine rejects the buffer with an exception rather than performing the
§4.4 point check.  The model makes that rejection unconditional; 64-byte
`r ‖ s` buffers that accidentally parse in the library's wire format are
below the model's resolution. -/
def nobleVerify (_sigBytes _msgHash _publicKey : List Nat) :
    Except String Bool :=
  Except.error "Invalid signature format"

/-- `signEOTS` (eots.ts, byte-array inputs), parameterised over the external
hash (nonce derivation, line 88) and curve primitive (line 98).  Statement
order follows the source: nonce selection, nonce range check, x-coordinate
of `k·G` as `r` (no reduction, no check), `s = k⁻¹(h + r·x) mod n` with a
zero check, 32-byte encodings. -/
def signEOTS (hash : List Nat → List Nat) (C : Curve)
    (privKey msgHash : List Nat) (nonce : Option (List Nat)) :
    Except String EOTSSignature :=
  let k : List Nat :=
    match nonce with
    | some nb => nb
    | none => hash (privKey ++ msgHash)
  let kNum := bytesToNumber k
  if kNum ≥ curveN ∨ kNum = 0 then Except.error "Invalid nonce generated"
  else
    -- `getPublicKeySecp(k, false)` then `kPoint.slice(1, 33)`: the 32-byte
    -- big-endian x-coordinate of the point for scalar `k`.
    let r := numberToBytes (C.pointX kNum) 32
    let rNum := bytesToNumber r
    let hashNum := bytesToNumber msgHash
    let privKeyNum := bytesToNumber privKey
    match modInverse (kNum : Int) (curveN : Int) with
    | Except.error e => Except.error e
    | Except.ok kInv =>
      let s := tsMod (kInv * ((hashNum : Int) + (rNum : Int) * (privKeyNum : Int))) (curveN : Int)
      if s = 0 then Except.error "Invalid signature: s is zero"
      else Except.ok ⟨r, numberToBytes s.toNat 32⟩

/-- `verifyEOTS` (eots.ts, byte-array inputs), parameterised over the
external verification routine `vfy` it delegates to.  The range check on
`r` and `s` short-circuits to `false`; the inner `try/catch` around the
library call converts an exception into `true`; the outer `try/catch`
(which converts an exception into `false`) has nothing left to catch at
this level of modelling, every remaining step being total. -/
def verifyEOTS (vfy : List Nat → List Nat → List Nat → Except String Bool)
    (publicKey msgHash : List Nat) (signature : EOTSSignature) : Bool :=
  let r := bytesToNumber signature.r
  let s := bytesToNumber signature.s
  if r = 0 ∨ r ≥ curveN ∨ s = 0 ∨ s ≥ curveN then false
  else
    let sBytes := numberToBytes s 32
    let rBytes := numberToBytes r 32
    let derSig := rBytes ++ sBytes
    match vfy derSig msgHash publicKey with
    | Except.ok b => b
    | Except.error _ => true

/-- `extractPrivateKey` (eots.ts, byte-array inputs): precondition checks in
source order, then the nonce-reuse recovery
`k = (h1 − h2)/(s1 − s2)`, `x = (s1·k − h1)/r1 (mod n)`. -/
def extractPrivateKey (sig1 sig2 : EOTSSignature) (hash1 hash2 : List Nat) :
    Except String (List Nat) :=
  let r1 := bytesToNumber sig1.r
  let s1 := bytesToNumber sig1.s
  let r2 := bytesToNumber sig2.r
  let s2 := bytesToNumber sig2.s
  let h1 := bytesToNumber hash1
  let h2 := bytesToNumber hash2
  if r1 ≠ r2 then
    Except.error "Signatures do not use the same nonce (r values are different)"
  else if s1 = s2 then
    Except.error "Signatures are identical"
  else
    let sDiff := tsMod ((s1 : Int) - (s2 : Int)) (curveN : Int)
    if sDiff = 0 then
      Except.error "Cannot extract private key: s1 equals s2"
    else
      let hDiff := tsMod ((h1 : Int) - (h2 : Int)) (curveN : Int)
      match modInverse sDiff (curveN : Int) with
      | Except.error e => Except.error e
      | Except.ok sDiffInv =>
        let k := tsMod (hDiff * sDiffInv) (curveN : Int)
        let numerator := tsMod ((s1 : Int) * k - (h1 : Int)) (curveN : Int)
        match modInverse (r1 : Int) (curveN : Int) with
        | Except.error e => Except.error e
        | Except.ok rInv =>
          Except.ok (numberToBytes (tsMod (numerator * rInv) (curveN : Int)).toNat 32)

/-- `signEOTS` called with hex-string inputs: the `typeof · === "string"`
branches decode through `hexToBytes`.  A present-but-empty nonce string is
falsy in JavaScript, so it selects the derived-nonce path. -/
def signEOTSHex (hash : List Nat → List Nat) (C : Curve)
    (privateKey messageHash : List Char) (nonce : Option (List Char)) :
    Except String EOTSSignature :=
  signEOTS hash C (hexToBytes privateKey) (hexToBytes messageHash)
    (match nonce with
     | some nc => if nc = [] then none else some (hexToBytes nc)
     | none => none)

/-! ## Primality of the group order

The spec (§4.1) relies on the group order `n` being prime ("`gcd(a, n) ≠ 1`
can only happen if `a ≡ 0 mod n`, since `n` is prime for the target curve
order").  We certify `curveN.Prime` with Lucas certificates
(`lucas_primality`), using a fast modular exponentiation that the kernel can
evaluate. -/

/-- Binary modular exponentiation, fuel-structured so the kernel can reduce
it; the fuel case is unreachable for `e ≤ fuel`. -/
def powModAux : Nat → Nat → Nat → Nat → Nat
  | _, _, 0, m => 1 % m
  | 0, _, _, _ => 0
  | fuel + 1, a, e, m =>
    let h := powModAux fuel a (e / 2) m
    if e % 2 = 0 then h * h % m else h * h % m * a % m

/-- `a ^ e mod m` by binary exponentiation. -/
def powMod (a e m : Nat) : Nat := powModAux e a e m

theorem powModAux_eq (fuel a e m : Nat) (hfe : e ≤ fuel) :
    powModAux fuel a e m = a ^ e % m := by
  induction fuel generalizing e with
  | zero =>
    interval_cases e
    simp [powModAux]
  | succ fuel ih =>
    match e with
    | 0 => simp [powModAux]
    | e + 1 =>
      have h2 : (e + 1) / 2 ≤ fuel := by omega
      have hrec := ih ((e + 1) / 2) h2
      have hsplit : 2 * ((e + 1) / 2) + (e + 1) % 2 = e + 1 :=
        Nat.div_add_mod' (e + 1) 2 ▸ by omega
      show (let h := powModAux fuel a ((e + 1) / 2) m;
        if (e + 1) % 2 = 0 then h * h % m else h * h % m * a % m) = _
    
      simp only [hrec]
      rcases Nat.mod_two_eq_zero_or_one (e + 1) with hpar | hpar <;>
        simp only [hpar, if_pos rfl, if_neg one_ne_zero, reduceIte] <;>
        conv_rhs => rw [← hsplit]
      · rw [hpar]
        have hsum : 2 * ((e + 1) / 2) + 0 = (e + 1) / 2 + (e + 1) / 2 := by omega
        rw [← Nat.mul_mod, hsum, pow_add]
      · rw [hpar]
        have hsum : 2 * ((e + 1) / 2) + 1 = (e + 1) / 2 + (e + 1) / 2 + 1 := by omega
        rw [← Nat.mul_mod, Nat.mod_mul_mod, hsum, pow_succ, pow_add]

theorem powMod_eq (a e m : Nat) : powMod a e m = a ^ e % m :=
  powModAux_eq e a e m le_rfl

theorem zmod_pow_eq_one_iff (a e N : Nat) (hN : 1 < N) :
    (a : ZMod N) ^ e = 1 ↔ powMod a e N = 1 := by
  have h1 : ((a ^ e : Nat) : ZMod N) = ((powMod a e N : Nat) : ZMod N) := by
    rw [powMod_eq, ZMod.natCast_mod]
  constructor
  · intro h
    have h2 : ((a ^ e : Nat) : ZMod N) = ((1 : Nat) : ZMod N) := by
      push_cast
      rw [h]
    rw [h1] at h2
    have h3 := (ZMod.natCast_eq_natCast_iff' _ _ _).mp h2
    rwa [powMod_eq, Nat.mod_mod, Nat.mod_eq_of_lt hN,
      ← powMod_eq a e N] at h3
  · intro h
    have h2 : ((a ^ e : Nat) : ZMod N) = ((1 : Nat) : ZMod N) := by
      rw [h1, h]
    push_cast at h2
    exact h2

/-- A Lucas certificate packaged over a factor list: if `N - 1` is the
product of the listed prime powers, `a ^ (N-1) ≡ 1` and `a ^ ((N-1)/p) ≢ 1`
for each listed prime `p`, then `N` is prime. -/
theorem lucas_cert_list (N a : Nat) (factors : List (Nat × Nat))
    (hN : 1 < N)
    (hfac : N - 1 = factors.foldr (fun pe acc => pe.1 ^ pe.2 * acc) 1)
    (hprimes : ∀ pe ∈ factors, Nat.Prime pe.1)
    (hpow : powMod a (N - 1) N = 1)
    (hnot : ∀ pe ∈ factors, powMod a ((N - 1) / pe.1) N ≠ 1) : N.Prime := by
  apply lucas_primality N (a : ZMod N)
  · exact (zmod_pow_eq_one_iff a (N - 1) N hN).mpr hpow
  · intro q hq hdvd
    have hmem : ∃ pe ∈ factors, q = pe.1 := by
      rw [hfac] at hdvd
      clear hfac hnot
      induction factors with
      | nil =>
        simp only [List.foldr_nil] at hdvd
        exact absurd (Nat.le_of_dvd one_pos hdvd) (by have := hq.two_le; omega)
      | cons pe rest ih =>
        simp only [List.foldr_cons] at hdvd
        rcases (Nat.Prime.dvd_mul hq).mp hdvd with hl | hr
        · exact ⟨pe, List.mem_cons_self .., Nat.prime_dvd_prime_iff_eq hq
            (hprimes pe (List.mem_cons_self ..)) |>.mp
            (hq.prime.dvd_of_dvd_pow hl)⟩
        · obtain ⟨pe2, hpe2, hq2⟩ :=
            ih (fun x hx => hprimes x (List.mem_cons_of_mem _ hx)) hr
          exact ⟨pe2, List.mem_cons_of_mem _ hpe2, hq2⟩
    obtain ⟨pe, hpe, rfl⟩ := hmem
    rw [Ne, zmod_pow_eq_one_iff _ _ _ hN]
    exact hnot pe hpe

theorem prime_28181 : Nat.Prime 28181 := by norm_num

theorem prime_1627771 : Nat.Prime 1627771 :=
  lucas_cert_list 1627771 3 [(2, 1), (3, 1), (5, 1), (29, 1), (1871, 1)]
    (by norm_num)
    (by decide)
    (by
      intro pe hpe
      simp only [List.mem_cons, List.not_mem_nil, or_false] at hpe
      rcases hpe with rfl | rfl | rfl | rfl | rfl <;> norm_num)
    (by decide)
    (by
      intro pe hpe
      simp only [List.mem_cons, List.not_mem_nil, or_false] at hpe
      rcases hpe with rfl | rfl | rfl | rfl | rfl <;> decide)

theorem prime_305873 : Nat.Prime 305873 := by norm_num

theorem prime_16699 : Nat.Prime 16699 := by norm_num

theorem prime_85831 : Nat.Prime 85831 := by norm_num

theorem prime_4681609 : Nat.Prime 4681609 :=
  lucas_cert_list 4681609 23 [(2, 3), (3, 1), (97, 1), (2011, 1)]
    (by norm_num)
    (by decide)
    (by
      intro pe hpe
      simp only [List.mem_cons, List.not_mem_nil, or_false] at hpe
      rcases hpe with rfl | rfl | rfl | rfl <;> norm_num)
    (by decide)
    (by
      intro pe hpe
      simp only [List.mem_cons, List.not_mem_nil, or_false] at hpe
      rcases hpe with rfl | rfl | rfl | rfl <;> decide)

theorem prime_4051 : Nat.Prime 4051 := by norm_num

theorem prime_120233 : Nat.Prime 120233 := by norm_num

theorem prime_44706919 : Nat.Prime 44706919 :=
  lucas_cert_list 44706919 6 [(2, 1), (3, 1), (797, 1), (9349, 1)]
    (by norm_num)
    (by decide)
    (by
      intro pe hpe
      simp only [List.mem_cons, List.not_mem_nil, or_false] at hpe
      rcases hpe with rfl | rfl | rfl | rfl <;> norm_num)
    (by decide)
    (by
      intro pe hpe
      simp only [List.mem_cons, List.not_mem_nil, or_false] at hpe
      rcases hpe with rfl | rfl | rfl | rfl <;> decide)

theorem prime_545358713 : Nat.Prime 545358713 :=
  lucas_cert_list 545358713 5 [(2, 3), (41, 1), (59, 1), (28181, 1)]
    (by norm_num)
    (by decide)
    (by
      intro pe hpe
      simp only [List.mem_cons, List.not_mem_nil, or_false] at hpe
      rcases hpe with rfl | rfl | rfl | rfl <;> norm_num)
    (by decide)
    (by
      intro pe hpe
      simp only [List.mem_cons, List.not_mem_nil, or_false] at hpe
      rcases hpe with rfl | rfl | rfl | rfl <;> decide)

theorem prime_297159362677 : Nat.Prime 297159362677 :=
  lucas_cert_list 297159362677 2 [(2, 2), (3, 2), (11, 1), (461, 1), (1627771, 1)]
    (by norm_num)
    (by decide)
    (by
      intro pe hpe
      simp only [List.mem_cons, List.not_mem_nil, or_false] at hpe
      rcases hpe with rfl | rfl | rfl | rfl | rfl <;> norm_num)
    (by decide)
    (by
      intro pe hpe
      simp only [List.mem_cons, List.not_mem_nil, or_false] at hpe
      rcases hpe with rfl | rfl | rfl | rfl | rfl <;> decide)

theorem prime_29047611873442575647497758179 :
    Nat.Prime 29047611873442575647497758179 :=
  lucas_cert_list 29047611873442575647497758179 2
    [(2, 1), (293, 1), (305873, 1), (545358713, 1), (297159362677, 1)]
    (by norm_num)
    (by decide)
    (by
      intro pe hpe
      simp only [List.mem_cons, List.not_mem_nil, or_false] at hpe
      rcases hpe with rfl | rfl | rfl | rfl | rfl <;>
        first
          | exact prime_305873
          | exact prime_545358713
          | exact prime_297159362677
          | norm_num)
    (by decide)
    (by
      intro pe hpe
      simp only [List.mem_cons, List.not_mem_nil, or_false] at hpe
      rcases hpe with rfl | rfl | rfl | rfl | rfl <;> decide)

theorem prime_341948486974166000522343609283189 :
    Nat.Prime 341948486974166000522343609283189 :=
  lucas_cert_list 341948486974166000522343609283189 2
    [(2, 2), (3, 3), (109, 1), (29047611873442575647497758179, 1)]
    (by norm_num)
    (by decide)
    (by
      intro pe hpe
      simp only [List.mem_cons, List.not_mem_nil, or_false] at hpe
      rcases hpe with rfl | rfl | rfl | rfl <;>
        first
          | exact prime_29047611873442575647497758179
          | norm_num)
    (by decide)
    (by
      intro pe hpe
      simp only [List.mem_cons, List.not_mem_nil, or_false] at hpe
      rcases hpe with rfl | rfl | rfl | rfl <;> decide)

theorem prime_107361793816595537 : Nat.Prime 107361793816595537 :=
  lucas_cert_list 107361793816595537 3
    [(2, 4), (16699, 1), (85831, 1), (4681609, 1)]
    (by norm_num)
    (by decide)
    (by
      intro pe hpe
      simp only [List.mem_cons, List.not_mem_nil, or_false] at hpe
      rcases hpe with rfl | rfl | rfl | rfl <;>
        first
          | exact prime_16699
          | exact prime_85831
          | exact prime_4681609
          | norm_num)
    (by decide)
    (by
      intro pe hpe
      simp only [List.mem_cons, List.not_mem_nil, or_false] at hpe
      rcases hpe with rfl | rfl | rfl | rfl <;> decide)

theorem prime_174723607534414371449 : Nat.Prime 174723607534414371449 :=
  lucas_cert_list 174723607534414371449 3
    [(2, 3), (17, 1), (59, 1), (4051, 1), (120233, 1), (44706919, 1)]
    (by norm_num)
    (by decide)
    (by
      intro pe hpe
      simp only [List.mem_cons, List.not_mem_nil, or_false] at hpe
      rcases hpe with rfl | rfl | rfl | rfl | rfl | rfl <;>
        first
          | exact prime_4051
          | exact prime_120233
          | exact prime_44706919
          | norm_num)
    (by decide)
    (by
      intro pe hpe
      simp only [List.mem_cons, List.not_mem_nil, or_false] at hpe
      rcases hpe with rfl | rfl | rfl | rfl | rfl | rfl <;> decide)

/-- The secp256k1 group order is prime (Lucas certificate chain). -/
theorem curveN_prime : Nat.Prime curveN :=
  lucas_cert_list curveN 7
    [(2, 6), (3, 1), (149, 1), (631, 1), (107361793816595537, 1),
      (174723607534414371449, 1), (341948486974166000522343609283189, 1)]
    (by norm_num [curveN])
    (by decide)
    (by
      intro pe hpe
      simp only [List.mem_cons, List.not_mem_nil, or_false] at hpe
      rcases hpe with rfl | rfl | rfl | rfl | rfl | rfl | rfl <;>
        first
          | exact prime_107361793816595537
          | exact prime_174723607534414371449
          | exact prime_341948486974166000522343609283189
          | norm_num)
    (by decide)
    (by
      intro pe hpe
      simp only [List.mem_cons, List.not_mem_nil, or_false] at hpe
      rcases hpe with rfl | rfl | rfl | rfl | rfl | rfl | rfl <;> decide)

/-! ## ScalarCodec lemmas -/

theorem hexDigitsAux_eq (fuel : Nat) :
    ∀ (n : Nat) (acc : List Nat), n ≤ fuel →
      hexDigitsAux fuel n acc =
        (if n = 0 then [0] else (Nat.digits 16 n).reverse) ++ acc := by
  induction fuel with
  | zero =>
    intro n acc h
    interval_cases n
    simp [hexDigitsAux]
  | succ fuel ih =>
    intro n acc h
    by_cases h16 : n < 16
    · have : hexDigitsAux (fuel + 1) n acc = n :: acc := by
        simp [hexDigitsAux, h16]
      rw [this]
      rcases Nat.eq_zero_or_pos n with rfl | hn
      · simp
      · rw [if_neg (by omega), Nat.digits_def' (by norm_num : (1:Nat) < 16) hn,
          Nat.mod_eq_of_lt h16, Nat.div_eq_of_lt h16]
        simp
    · have hstep : hexDigitsAux (fuel + 1) n acc =
          hexDigitsAux fuel (n / 16) (n % 16 :: acc) := by
        simp [hexDigitsAux, h16]
      have hdiv : n / 16 ≤ fuel := by
        have := Nat.div_lt_self (by omega : 0 < n) (by norm_num : 1 < 16)
        omega
      rw [hstep, ih _ _ hdiv, if_neg (by omega : ¬ n = 0),
        if_neg (by omega : ¬ n / 16 = 0),
        Nat.digits_def' (by norm_num : (1:Nat) < 16) (by omega : 0 < n)]
      simp

theorem hexDigits_eq (n : Nat) :
    hexDigits n = if n = 0 then [0] else (Nat.digits 16 n).reverse := by
  have := hexDigitsAux_eq n n [] le_rfl
  simpa [hexDigits] using this

theorem hexDigits_lt (n : Nat) : ∀ d ∈ hexDigits n, d < 16 := by
  intro d hd
  rw [hexDigits_eq] at hd
  rcases Nat.eq_zero_or_pos n with rfl | hn
  · simp at hd
    omega
  · rw [if_neg (by omega)] at hd
    exact Nat.digits_lt_base (by norm_num) (List.mem_reverse.mp hd)

theorem hexDigits_length_le (n L : Nat) (hL : 0 < L) (h : n < 16 ^ L) :
    (hexDigits n).length ≤ L := by
  rw [hexDigits_eq]
  rcases Nat.eq_zero_or_pos n with rfl | hn
  · simpa using hL
  · rw [if_neg (by omega), List.length_reverse,
      Nat.digits_len 16 n (by norm_num) (by omega)]
    have := (Nat.lt_pow_iff_log_lt (by norm_num : 1 < 16) (by omega : n ≠ 0)).mp h
    omega

theorem hexDigits_ne_nil (n : Nat) : hexDigits n ≠ [] := by
  rw [hexDigits_eq]
  rcases Nat.eq_zero_or_pos n with rfl | hn
  · simp
  · rw [if_neg (by omega)]
    simp only [ne_eq, List.reverse_eq_nil_iff, Nat.digits_ne_nil_iff_ne_zero]
    omega

theorem foldl16_reverse (l : List Nat) :
    l.reverse.foldl (fun a d => a * 16 + d) 0 = Nat.ofDigits 16 l := by
  induction l with
  | nil => simp [Nat.ofDigits]
  | cons d rest ih =>
    rw [List.reverse_cons, List.foldl_append, ih, Nat.ofDigits_cons]
    simp only [List.foldl_cons, List.foldl_nil]
    omega

theorem hexDigits_val (n : Nat) :
    (hexDigits n).foldl (fun a d => a * 16 + d) 0 = n := by
  rw [hexDigits_eq]
  rcases Nat.eq_zero_or_pos n with rfl | hn
  · simp
  · rw [if_neg (by omega), foldl16_reverse, Nat.ofDigits_digits]

theorem hexCharVal_hexDigitChar : ∀ d < 16, hexCharVal (hexDigitChar d) = some d := by
  decide

theorem hexDigitChar_ne_x : ∀ d < 16, hexDigitChar d ≠ 'x' := by
  decide

theorem hexCharVal_lt (c : Char) (v : Nat) (h : hexCharVal c = some v) : v < 16 := by
  unfold hexCharVal at h
  simp only at h
  split at h
  · simp only [Option.some.injEq] at h
    omega
  · split at h
    · simp only [Option.some.injEq] at h
      omega
    · split at h
      · simp only [Option.some.injEq] at h
        omega
      · exact absurd h (by simp)

theorem pairVal_lt (c1 c2 : Char) : pairVal c1 c2 < 256 := by
  cases h1 : hexCharVal c1 with
  | none => simp [pairVal, h1]
  | some v1 =>
    cases h2 : hexCharVal c2 with
    | none =>
      have := hexCharVal_lt c1 v1 h1
      simp only [pairVal, h1, h2]
      omega
    | some v2 =>
      have l1 := hexCharVal_lt c1 v1 h1
      have l2 := hexCharVal_lt c2 v2 h2
      simp only [pairVal, h1, h2]
      omega

theorem pairsToBytes_length (cs : List Char) :
    (pairsToBytes cs).length = cs.length / 2 := by
  induction cs using pairsToBytes.induct with
  | case1 c1 c2 rest ih =>
    simp only [pairsToBytes, List.length_cons, ih]
    omega
  | case2 c => simp [pairsToBytes]
  | case3 => simp [pairsToBytes]

theorem pairsToBytes_lt (cs : List Char) : ∀ b ∈ pairsToBytes cs, b < 256 := by
  induction cs using pairsToBytes.induct with
  | case1 c1 c2 rest ih =>
    intro b hb
    rcases List.mem_cons.mp hb with rfl | h
    · exact pairVal_lt c1 c2
    · exact ih b h
  | case2 c => simp [pairsToBytes]
  | case3 => simp [pairsToBytes]

theorem pairs_fold :
    ∀ (ds : List Nat), (∀ d ∈ ds, d < 16) → ds.length % 2 = 0 →
      ∀ a : Nat,
        (pairsToBytes (ds.map hexDigitChar)).foldl (fun r b => r * 256 + b) a
          = ds.foldl (fun r d => r * 16 + d) a
  | [], _, _, _ => rfl
  | [_], _, hlen, _ => by simp at hlen
  | d1 :: d2 :: rest, hd, hlen, a => by
    have h1 : d1 < 16 := hd d1 (by simp)
    have h2 : d2 < 16 := hd d2 (by simp)
    have hrest : ∀ d ∈ rest, d < 16 := fun d h => hd d (by simp [h])
    have hlen2 : rest.length % 2 = 0 := by
      simp only [List.length_cons] at hlen
      omega
    show (pairVal (hexDigitChar d1) (hexDigitChar d2) ::
        pairsToBytes (rest.map hexDigitChar)).foldl (fun r b => r * 256 + b) a = _
    rw [List.foldl_cons]
    have hpv : pairVal (hexDigitChar d1) (hexDigitChar d2) = 16 * d1 + d2 := by
      unfold pairVal
      rw [hexCharVal_hexDigitChar d1 h1, hexCharVal_hexDigitChar d2 h2]
    rw [hpv, pairs_fold rest hrest hlen2]
    simp only [List.foldl_cons]
    congr 1
    ring

theorem hexToBytes_lt (s : List Char) : ∀ b ∈ hexToBytes s, b < 256 := by
  unfold hexToBytes
  intro b hb
  exact pairsToBytes_lt _ b hb

theorem foldl16_replicate_zero (k : Nat) :
    (List.replicate k 0).foldl (fun a d => a * 16 + d) 0 = 0 := by
  induction k with
  | zero => rfl
  | succ k ih => simpa [List.replicate_succ] using ih

theorem numberToBytes_eq_pairs (num L : Nat) (hL : 0 < L)
    (h : num < 16 ^ (L * 2)) :
    numberToBytes num L =
      pairsToBytes ((List.replicate (L * 2 - (hexDigits num).length) 0
        ++ hexDigits num).map hexDigitChar) := by
  have hlen : (hexDigits num).length ≤ L * 2 :=
    hexDigits_length_le num (L * 2) (by omega) h
  have hchar0 : hexDigitChar 0 = '0' := rfl
  have hmap : padStart ((hexDigits num).map hexDigitChar) (L * 2) '0' =
      (List.replicate (L * 2 - (hexDigits num).length) 0
        ++ hexDigits num).map hexDigitChar := by
    rw [List.map_append, List.map_replicate, hchar0]
    simp [padStart]
  set lst := (List.replicate (L * 2 - (hexDigits num).length) 0
      ++ hexDigits num).map hexDigitChar with hlst
  have hmem : ∀ c ∈ lst, ∃ d, d < 16 ∧ c = hexDigitChar d := by
    intro c hc
    rw [hlst] at hc
    obtain ⟨d, hd, rfl⟩ := List.mem_map.mp hc
    rcases List.mem_append.mp hd with hrep | hdig
    · exact ⟨d, by simpa using (List.eq_of_mem_replicate hrep) ▸ (by omega : (0:Nat) < 16), rfl⟩
    · exact ⟨d, hexDigits_lt num d hdig, rfl⟩
  have hlstlen : lst.length = L * 2 := by
    rw [hlst]
    simp only [List.length_map, List.length_append, List.length_replicate]
    omega
  have hnotx : ¬ lst.take 2 = ['0', 'x'] := by
    intro heq
    have hx : 'x' ∈ lst := by
      have hsub := List.take_subset 2 lst
      rw [heq] at hsub
      exact hsub (by simp)
    obtain ⟨d, hd, hcd⟩ := hmem 'x' hx
    exact hexDigitChar_ne_x d hd hcd.symm
  have heven : ¬ lst.length % 2 ≠ 0 := by
    rw [hlstlen]
    omega
  unfold numberToBytes hexToBytes
  rw [hmap]
  simp only [← hlst, if_neg hnotx, if_neg heven]

theorem numberToBytes_length_eq (num L : Nat) (hL : 0 < L)
    (h : num < 16 ^ (L * 2)) : (numberToBytes num L).length = L := by
  have hlen : (hexDigits num).length ≤ L * 2 :=
    hexDigits_length_le num (L * 2) (by omega) h
  rw [numberToBytes_eq_pairs num L hL h, pairsToBytes_length, List.length_map,
    List.length_append, List.length_replicate]
  omega

theorem bytesToNumber_numberToBytes (num L : Nat) (hL : 0 < L)
    (h : num < 16 ^ (L * 2)) : bytesToNumber (numberToBytes num L) = num := by
  have hlen : (hexDigits num).length ≤ L * 2 :=
    hexDigits_length_le num (L * 2) (by omega) h
  rw [numberToBytes_eq_pairs num L hL h]
  unfold bytesToNumber
  rw [pairs_fold _ ?hd ?hpar 0]
  case hd =>
    intro d hd
    rcases List.mem_append.mp hd with hrep | hdig
    · have := List.eq_of_mem_replicate hrep
      omega
    · exact hexDigits_lt num d hdig
  case hpar =>
    simp only [List.length_append, List.length_replicate]
    omega
  rw [List.foldl_append, foldl16_replicate_zero, hexDigits_val]

/-! ## ModularArithmetic lemmas -/

theorem tmod_bounds (a b : Int) (hb : 0 < b) : -b < a.tmod b ∧ a.tmod b < b := by
  obtain ⟨n, rfl⟩ : ∃ n : Nat, b = Int.ofNat n :=
    ⟨b.toNat, by rw [Int.ofNat_eq_coe, Int.toNat_of_nonneg (le_of_lt hb)]⟩
  have hn : 0 < n := by
    rw [Int.ofNat_eq_coe] at hb
    exact_mod_cast hb
  rcases a with m | m
  · have hdef : (Int.ofNat m).tmod (Int.ofNat n) = Int.ofNat (m % n) := rfl
    have hm := Nat.mod_lt m hn
    rw [hdef]
    constructor <;> simp only [Int.ofNat_eq_coe] <;> omega
  · have hdef : (Int.negSucc m).tmod (Int.ofNat n) = -Int.ofNat ((m + 1) % n) := rfl
    have hm := Nat.mod_lt (m + 1) hn
    rw [hdef]
    constructor <;> simp only [Int.ofNat_eq_coe, Int.negSucc_eq] <;> omega

theorem tsMod_nonneg (a b : Int) (hb : 0 < b) : 0 ≤ tsMod a b := by
  unfold tsMod
  simp only
  have := tmod_bounds a b hb
  split <;> omega

theorem tsMod_lt (a b : Int) (hb : 0 < b) : tsMod a b < b := by
  unfold tsMod
  simp only
  have := tmod_bounds a b hb
  split <;> omega

theorem tsMod_sub_dvd (a b : Int) : b ∣ a - tsMod a b := by
  unfold tsMod
  simp only
  have hq := Int.tdiv_add_tmod a b
  split
  · exact ⟨a.tdiv b, by omega⟩
  · exact ⟨a.tdiv b - 1, by ring_nf; omega⟩

theorem emod_eq_of_sub_dvd (a t b : Int) (h1 : 0 ≤ t) (h2 : t < b)
    (hd : b ∣ a - t) : a % b = t := by
  obtain ⟨q, hq⟩ := hd
  have ha : a = t + b * q := by omega
  rw [ha, Int.add_mul_emod_self_left, Int.emod_eq_of_lt h1 h2]

theorem tsMod_eq_emod (a b : Int) (hb : 0 < b) : tsMod a b = a % b :=
  (emod_eq_of_sub_dvd a (tsMod a b) b (tsMod_nonneg a b hb) (tsMod_lt a b hb)
    (tsMod_sub_dvd a b)).symm

theorem tsMod_modEq (a b : Int) : Int.ModEq b (tsMod a b) a :=
  Int.modEq_iff_dvd.mpr (tsMod_sub_dvd a b)

theorem egcdGo_fst (fuel : Nat) :
    ∀ (old_r r : Nat) (s t : Int), r ≤ fuel →
      (egcdGo fuel old_r r s t).1 = Nat.gcd r old_r := by
  induction fuel with
  | zero =>
    intro old_r r s t h
    interval_cases r
    simp [egcdGo]
  | succ fuel ih =>
    intro old_r r s t h
    cases r with
    | zero => simp [egcdGo]
    | succ rr =>
      have hstep : egcdGo (fuel + 1) old_r (rr + 1) s t =
          egcdGo fuel (rr + 1) (old_r % (rr + 1)) t
            (s - ((old_r / (rr + 1) : Nat) : Int) * t) := rfl
      have hle : old_r % (rr + 1) ≤ fuel := by
        have := Nat.mod_lt old_r (show 0 < rr + 1 by omega)
        omega
      rw [hstep, ih _ _ _ _ hle, Nat.gcd_rec (rr + 1) old_r]

theorem egcdGo_bezout (m a0 : Int) (fuel : Nat) :
    ∀ (old_r r : Nat) (s t : Int), r ≤ fuel →
      Int.ModEq m (old_r : Int) (s * a0) → Int.ModEq m (r : Int) (t * a0) →
      Int.ModEq m ((egcdGo fuel old_r r s t).1 : Int)
        ((egcdGo fuel old_r r s t).2 * a0) := by
  induction fuel with
  | zero =>
    intro old_r r s t h h1 h2
    interval_cases r
    simpa [egcdGo] using h1
  | succ fuel ih =>
    intro old_r r s t h h1 h2
    cases r with
    | zero => simpa [egcdGo] using h1
    | succ rr =>
      have hstep : egcdGo (fuel + 1) old_r (rr + 1) s t =
          egcdGo fuel (rr + 1) (old_r % (rr + 1)) t
            (s - ((old_r / (rr + 1) : Nat) : Int) * t) := rfl
      have hle : old_r % (rr + 1) ≤ fuel := by
        have := Nat.mod_lt old_r (show 0 < rr + 1 by omega)
        omega
      have hdm := Nat.div_add_mod old_r (rr + 1)
      have hcast : (((rr : Nat) + 1) : Int) * ((old_r / (rr + 1) : Nat) : Int)
          + ((old_r % (rr + 1) : Nat) : Int) = (old_r : Int) := by
        exact_mod_cast congrArg (fun x : Nat => (x : Int)) hdm
      have hnew : Int.ModEq m ((old_r % (rr + 1) : Nat) : Int)
          ((s - ((old_r / (rr + 1) : Nat) : Int) * t) * a0) := by
        have hmul : Int.ModEq m (((old_r / (rr + 1) : Nat) : Int) * ((rr : Nat) + 1 : Int))
            (((old_r / (rr + 1) : Nat) : Int) * (t * a0)) := by
          have := h2.mul_left ((old_r / (rr + 1) : Nat) : Int)
          simpa using this
        have hsub := h1.sub hmul
        have heq1 : ((old_r % (rr + 1) : Nat) : Int) =
            (old_r : Int) - ((old_r / (rr + 1) : Nat) : Int) * ((rr : Nat) + 1 : Int) := by
          rw [← hcast]
          ring
        have heq2 : (s - ((old_r / (rr + 1) : Nat) : Int) * t) * a0 =
            s * a0 - ((old_r / (rr + 1) : Nat) : Int) * (t * a0) := by
          ring
        rw [heq1, heq2]
        exact hsub
      rw [hstep]
      exact ih (rr + 1) (old_r % (rr + 1)) t _ hle h2 hnew

theorem modInverse_ok (m a v : Int) (hm : 1 < m) (ha : 0 ≤ a)
    (h : modInverse a m = Except.ok v) : Int.ModEq m (a * v) 1 := by
  unfold modInverse at h
  rw [if_neg (not_lt.mpr ha)] at h
  simp only at h
  rcases he : egcdGo m.toNat a.toNat m.toNat 1 0 with ⟨g, s⟩
  rw [he] at h
  simp only at h
  have hinit1 : Int.ModEq m (a.toNat : Int) ((1 : Int) * a) := by
    rw [Int.toNat_of_nonneg ha, one_mul]
  have hinit2 : Int.ModEq m (m.toNat : Int) ((0 : Int) * a) := by
    rw [Int.toNat_of_nonneg (by omega : (0:Int) ≤ m), zero_mul]
    exact Int.modEq_zero_iff_dvd.mpr dvd_rfl
  have hbez := egcdGo_bezout m a m.toNat a.toNat m.toNat 1 0 le_rfl hinit1 hinit2
  rw [he] at hbez
  simp only at hbez
  have hfst := egcdGo_fst m.toNat a.toNat m.toNat 1 0 le_rfl
  rw [he] at hfst
  simp only at hfst
  split at h
  · exact absurd h (by simp)
  · rename_i hg
    have hg1 : g = 1 := by
      rcases Nat.eq_zero_or_pos g with h0 | hpos
      · exfalso
        rw [h0] at hfst
        have := Nat.eq_zero_of_gcd_eq_zero_left hfst.symm
        omega
      · omega
    rw [hg1] at hbez
    simp only [Except.ok.injEq] at h
    have hv : Int.ModEq m v s := by
      rw [← h]
      split
      · have hm0 : Int.ModEq m (s + m) (s + 0) :=
          Int.ModEq.add_left s (Int.modEq_zero_iff_dvd.mpr dvd_rfl)
        simp only [add_zero] at hm0
        exact hm0
      · rfl
    calc a * v ≡ a * s [ZMOD m] := hv.mul_left a
      _ = s * a := by ring
      _ ≡ (1 : Nat) [ZMOD m] := hbez.symm
      _ = (1 : Int) := by norm_num

theorem modInverse_isOk (m a : Int) (ha : 0 ≤ a)
    (hcop : Nat.gcd m.toNat a.toNat = 1) : ∃ v, modInverse a m = Except.ok v := by
  unfold modInverse
  rw [if_neg (not_lt.mpr ha)]
  rcases he : egcdGo m.toNat a.toNat m.toNat 1 0 with ⟨g, s⟩
  have hfst := egcdGo_fst m.toNat a.toNat m.toNat 1 0 le_rfl
  rw [he] at hfst
  simp only at hfst
  have hg : g = 1 := hfst.trans hcop
  simp only [he, hg]
  exact ⟨_, rfl⟩

/-! ## Signer and Extractor lemmas -/

theorem sixteen_pow_64 : (16 : Nat) ^ (32 * 2) = 2 ^ 256 := by norm_num

theorem one_lt_curveN : 1 < curveN := by norm_num [curveN]

theorem curveN_lt_two_pow : curveN < 2 ^ 256 := by norm_num [curveN]

theorem bytesToNumber_numberToBytes32 (v : Nat) (h : v < 2 ^ 256) :
    bytesToNumber (numberToBytes v 32) = v :=
  bytesToNumber_numberToBytes v 32 (by norm_num) (by rw [sixteen_pow_64]; exact h)

theorem signEOTS_none_eq_some (hash : List Nat → List Nat) (C : Curve)
    (priv msg : List Nat) :
    signEOTS hash C priv msg none =
      signEOTS hash C priv msg (some (hash (priv ++ msg))) := rfl

theorem signEOTS_ok_spec (hash : List Nat → List Nat) (C : Curve)
    (priv msg nb : List Nat) (sig : EOTSSignature)
    (h : signEOTS hash C priv msg (some nb) = Except.ok sig) :
    ∃ kInv sVal : Int,
      0 < bytesToNumber nb ∧ bytesToNumber nb < curveN ∧
      modInverse ((bytesToNumber nb : Nat) : Int) ((curveN : Nat) : Int)
        = Except.ok kInv ∧
      sig.r = numberToBytes (C.pointX (bytesToNumber nb)) 32 ∧
      sVal = tsMod (kInv * ((bytesToNumber msg : Int)
        + ((C.pointX (bytesToNumber nb) : Nat) : Int) * (bytesToNumber priv : Int)))
        ((curveN : Nat) : Int) ∧
      sVal ≠ 0 ∧ sig.s = numberToBytes sVal.toNat 32 := by
  unfold signEOTS at h
  simp only at h
  split at h
  · exact Except.noConfusion h
  · rename_i hk
    push_neg at hk
    rw [bytesToNumber_numberToBytes32 (C.pointX (bytesToNumber nb))
      (C.pointX_lt (bytesToNumber nb))] at h
    split at h
    · exact Except.noConfusion h
    · rename_i kInv hinv
      split at h
      · exact Except.noConfusion h
      · rename_i hs
        simp only [Except.ok.injEq] at h
        exact ⟨kInv, _, by omega, by omega, hinv, by rw [← h], rfl, hs, by rw [← h]⟩

theorem intCast_tsMod_zmod (a : Int) :
    ((tsMod a ((curveN : Nat) : Int) : Int) : ZMod curveN) = (a : ZMod curveN) := by
  rw [ZMod.intCast_eq_intCast_iff]
  exact tsMod_modEq a _

theorem toNat_cast_zmod (x : Int) (hx : 0 ≤ x) :
    ((x.toNat : Nat) : ZMod curveN) = ((x : Int) : ZMod curveN) := by
  rw [← Int.toNat_of_nonneg hx]
  push_cast
  rfl

theorem nat_eq_of_zmod_cast_eq (a b : Nat) (ha : a < curveN) (hb : b < curveN)
    (h : (a : ZMod curveN) = (b : ZMod curveN)) : a = b := by
  rw [ZMod.natCast_eq_natCast_iff'] at h
  rwa [Nat.mod_eq_of_lt ha, Nat.mod_eq_of_lt hb] at h

theorem curveN_intCast_pos : (0 : Int) < ((curveN : Nat) : Int) := by
  have := one_lt_curveN
  omega

theorem modInverse_zmod_nat (a : Nat) (hnd : ¬ curveN ∣ a) :
    ∃ v : Int, modInverse ((a : Nat) : Int) ((curveN : Nat) : Int) = Except.ok v ∧
      (a : ZMod curveN) * ((v : Int) : ZMod curveN) = 1 := by
  have hcop : Nat.gcd (((curveN : Nat) : Int)).toNat (((a : Nat) : Int)).toNat = 1 := by
    rw [Int.toNat_natCast, Int.toNat_natCast]
    exact (Nat.Prime.coprime_iff_not_dvd curveN_prime).mpr hnd
  obtain ⟨v, hv⟩ := modInverse_isOk _ _ (by positivity) hcop
  refine ⟨v, hv, ?_⟩
  have hmod := modInverse_ok _ _ _ (by exact_mod_cast one_lt_curveN) (by positivity) hv
  have hc := (ZMod.intCast_eq_intCast_iff _ _ _).mpr hmod
  push_cast at hc
  exact hc

theorem modInverse_zmod_int (d : Int) (h0 : 0 ≤ d) (hlt : d < ((curveN : Nat) : Int))
    (hne : d ≠ 0) :
    ∃ v : Int, modInverse d ((curveN : Nat) : Int) = Except.ok v ∧
      ((d : Int) : ZMod curveN) * ((v : Int) : ZMod curveN) = 1 := by
  have hnd : ¬ curveN ∣ d.toNat := by
    intro hdvd
    have h1 : d.toNat < curveN := by omega
    have h2 : 0 < d.toNat := by omega
    have := Nat.le_of_dvd h2 hdvd
    omega
  have hcop : Nat.gcd (((curveN : Nat) : Int)).toNat (d.toNat) = 1 := by
    rw [Int.toNat_natCast]
    exact (Nat.Prime.coprime_iff_not_dvd curveN_prime).mpr hnd
  obtain ⟨v, hv⟩ := modInverse_isOk _ _ h0 hcop
  refine ⟨v, hv, ?_⟩
  have hmod := modInverse_ok _ _ _ (by exact_mod_cast one_lt_curveN) h0 hv
  have hc := (ZMod.intCast_eq_intCast_iff _ _ _).mpr hmod
  push_cast at hc
  exact hc

theorem extractPrivateKey_ok_eq (sig1 sig2 : EOTSSignature) (h1b h2b : List Nat)
    (dv rv : Int)
    (hreq : bytesToNumber sig1.r = bytesToNumber sig2.r)
    (hsne : bytesToNumber sig1.s ≠ bytesToNumber sig2.s)
    (hsd : tsMod ((bytesToNumber sig1.s : Int) - (bytesToNumber sig2.s : Int))
      ((curveN : Nat) : Int) ≠ 0)
    (hdv : modInverse (tsMod ((bytesToNumber sig1.s : Int) - (bytesToNumber sig2.s : Int))
      ((curveN : Nat) : Int)) ((curveN : Nat) : Int) = Except.ok dv)
    (hrv : modInverse ((bytesToNumber sig1.r : Nat) : Int) ((curveN : Nat) : Int)
      = Except.ok rv) :
    extractPrivateKey sig1 sig2 h1b h2b =
      Except.ok (numberToBytes (tsMod (tsMod ((bytesToNumber sig1.s : Int)
        * tsMod (tsMod ((bytesToNumber h1b : Int) - (bytesToNumber h2b : Int))
            ((curveN : Nat) : Int) * dv) ((curveN : Nat) : Int)
        - (bytesToNumber h1b : Int)) ((curveN : Nat) : Int) * rv)
        ((curveN : Nat) : Int)).toNat 32) := by
  unfold extractPrivateKey
  simp only
  rw [if_neg (show ¬ bytesToNumber sig1.r ≠ bytesToNumber sig2.r from by
    simpa using hreq)]
  rw [if_neg hsne, if_neg hsd, hdv, hrv]

set_option maxHeartbeats 2000000 in
/-- C1 (amended): nonce reuse recovers the private key, provided the shared
`r` value is not divisible by the group order. -/
theorem extract_recovers_privateKey (hash : List Nat → List Nat) (C : Curve)
    (x : Nat) (kb h1b h2b : List Nat) (sig1 sig2 : EOTSSignature)
    (_hx0 : 0 < x) (hxn : x < curveN)
    (hk0 : 0 < bytesToNumber kb) (_hkn : bytesToNumber kb < curveN)
    (hsig1 : signEOTS hash C (numberToBytes x 32) h1b (some kb) = Except.ok sig1)
    (hsig2 : signEOTS hash C (numberToBytes x 32) h2b (some kb) = Except.ok sig2)
    (hh : bytesToNumber h1b % curveN ≠ bytesToNumber h2b % curveN)
    (hr : bytesToNumber sig1.r % curveN ≠ 0) :
    extractPrivateKey sig1 sig2 h1b h2b = Except.ok (numberToBytes x 32) := by
  obtain ⟨kInv, s1V, _, _, hkinv, hr1, hs1eq, hs1ne, hs1b⟩ :=
    signEOTS_ok_spec hash C _ h1b kb sig1 hsig1
  obtain ⟨kInv2, s2V, _, _, hkinv2, hr2, hs2eq, hs2ne, hs2b⟩ :=
    signEOTS_ok_spec hash C _ h2b kb sig2 hsig2
  rw [hkinv] at hkinv2
  simp only [Except.ok.injEq] at hkinv2
  subst hkinv2
  set n := curveN with hn
  set k := bytesToNumber kb with hkdef
  set r := C.pointX k with hrdef
  set h1 := bytesToNumber h1b with hh1def
  set h2 := bytesToNumber h2b with hh2def
  have hnpos : (0 : Int) < ((n : Nat) : Int) := curveN_intCast_pos
  have hxval : bytesToNumber (numberToBytes x 32) = x :=
    bytesToNumber_numberToBytes32 x (lt_trans hxn curveN_lt_two_pow)
  have hrval1 : bytesToNumber sig1.r = r := by
    rw [hr1]
    exact bytesToNumber_numberToBytes32 r (C.pointX_lt k)
  have hrval2 : bytesToNumber sig2.r = r := by
    rw [hr2]
    exact bytesToNumber_numberToBytes32 r (C.pointX_lt k)
  -- numeric facts about the two s-values
  have hs1nn : 0 ≤ s1V := hs1eq ▸ tsMod_nonneg _ _ hnpos
  have hs1lt : s1V < ((n : Nat) : Int) := hs1eq ▸ tsMod_lt _ _ hnpos
  have hs2nn : 0 ≤ s2V := hs2eq ▸ tsMod_nonneg _ _ hnpos
  have hs2lt : s2V < ((n : Nat) : Int) := hs2eq ▸ tsMod_lt _ _ hnpos
  have hsval1 : bytesToNumber sig1.s = s1V.toNat := by
    rw [hs1b]
    exact bytesToNumber_numberToBytes32 s1V.toNat
      (by have := curveN_lt_two_pow; omega)
  have hsval2 : bytesToNumber sig2.s = s2V.toNat := by
    rw [hs2b]
    exact bytesToNumber_numberToBytes32 s2V.toNat
      (by have := curveN_lt_two_pow; omega)
  -- the main algebraic facts, in `ZMod n`
  have hKI : (k : ZMod n) * ((kInv : Int) : ZMod n) = 1 := by
    have hmod := modInverse_ok _ _ _ (by exact_mod_cast one_lt_curveN)
      (by positivity) hkinv
    have hc := (ZMod.intCast_eq_intCast_iff _ _ _).mpr hmod
    push_cast at hc
    exact hc
  have hS1 : ((bytesToNumber sig1.s : Nat) : ZMod n) =
      ((kInv : Int) : ZMod n) * ((h1 : ZMod n) + (r : ZMod n) * (x : ZMod n)) := by
    rw [hsval1, toNat_cast_zmod s1V hs1nn, hs1eq, intCast_tsMod_zmod, hxval]
    push_cast
    ring
  have hS2 : ((bytesToNumber sig2.s : Nat) : ZMod n) =
      ((kInv : Int) : ZMod n) * ((h2 : ZMod n) + (r : ZMod n) * (x : ZMod n)) := by
    rw [hsval2, toNat_cast_zmod s2V hs2nn, hs2eq, intCast_tsMod_zmod, hxval]
    push_cast
    ring
  have hHne : (h1 : ZMod n) ≠ (h2 : ZMod n) := by
    intro he
    exact hh ((ZMod.natCast_eq_natCast_iff' _ _ _).mp he)
  have hKS1 : (k : ZMod n) * ((bytesToNumber sig1.s : Nat) : ZMod n) =
      (h1 : ZMod n) + (r : ZMod n) * (x : ZMod n) := by
    calc (k : ZMod n) * ((bytesToNumber sig1.s : Nat) : ZMod n)
        = ((k : ZMod n) * ((kInv : Int) : ZMod n)) *
          ((h1 : ZMod n) + (r : ZMod n) * (x : ZMod n)) := by rw [hS1]; ring
      _ = (h1 : ZMod n) + (r : ZMod n) * (x : ZMod n) := by rw [hKI, one_mul]
  have hKS2 : (k : ZMod n) * ((bytesToNumber sig2.s : Nat) : ZMod n) =
      (h2 : ZMod n) + (r : ZMod n) * (x : ZMod n) := by
    calc (k : ZMod n) * ((bytesToNumber sig2.s : Nat) : ZMod n)
        = ((k : ZMod n) * ((kInv : Int) : ZMod n)) *
          ((h2 : ZMod n) + (r : ZMod n) * (x : ZMod n)) := by rw [hS2]; ring
      _ = (h2 : ZMod n) + (r : ZMod n) * (x : ZMod n) := by rw [hKI, one_mul]
  have hSzne : ((bytesToNumber sig1.s : Nat) : ZMod n) ≠
      ((bytesToNumber sig2.s : Nat) : ZMod n) := by
    intro he
    apply hHne
    have h12 : (h1 : ZMod n) + (r : ZMod n) * (x : ZMod n) =
        (h2 : ZMod n) + (r : ZMod n) * (x : ZMod n) := by
      rw [← hKS1, ← hKS2, he]
    exact add_right_cancel h12
  have hsne : bytesToNumber sig1.s ≠ bytesToNumber sig2.s := by
    intro he
    exact hSzne (by rw [he])
  -- sDiff and its inverse
  have hsdcast : ((tsMod ((bytesToNumber sig1.s : Int) - (bytesToNumber sig2.s : Int))
      ((n : Nat) : Int) : Int) : ZMod n) =
      ((bytesToNumber sig1.s : Nat) : ZMod n) - ((bytesToNumber sig2.s : Nat) : ZMod n) := by
    rw [intCast_tsMod_zmod]
    push_cast
    ring
  have hsd : tsMod ((bytesToNumber sig1.s : Int) - (bytesToNumber sig2.s : Int))
      ((n : Nat) : Int) ≠ 0 := by
    intro he
    apply hSzne
    have := hsdcast
    rw [he] at this
    simp only [Int.cast_zero] at this
    exact sub_eq_zero.mp this.symm
  obtain ⟨dv, hdv, hdvz⟩ := modInverse_zmod_int _
    (tsMod_nonneg _ _ hnpos) (tsMod_lt _ _ hnpos) hsd
  obtain ⟨rv, hrv, hrvz⟩ := modInverse_zmod_nat r (by
    rw [hrval1] at hr
    intro hdvd
    obtain ⟨c, hc⟩ := hdvd
    exact hr (by rw [hc, Nat.mul_mod_right]))
  rw [← hrval1] at hrv
  rw [extractPrivateKey_ok_eq sig1 sig2 h1b h2b dv rv
    (by rw [hrval1, hrval2]) hsne hsd hdv hrv]
  have hres0 : (0:Int) ≤ tsMod (tsMod ((bytesToNumber sig1.s : Int)
      * tsMod (tsMod ((h1 : Int) - (h2 : Int)) ((n : Nat) : Int) * dv) ((n : Nat) : Int)
      - (h1 : Int)) ((n : Nat) : Int) * rv) ((n : Nat) : Int) :=
    tsMod_nonneg _ _ hnpos
  have hreslt := tsMod_lt (tsMod ((bytesToNumber sig1.s : Int)
      * tsMod (tsMod ((h1 : Int) - (h2 : Int)) ((n : Nat) : Int) * dv) ((n : Nat) : Int)
      - (h1 : Int)) ((n : Nat) : Int) * rv) ((n : Nat) : Int) hnpos
  -- the recovered value equals `x`
  have hKdiff : (k : ZMod n) * (((bytesToNumber sig1.s : Nat) : ZMod n)
      - ((bytesToNumber sig2.s : Nat) : ZMod n)) = (h1 : ZMod n) - (h2 : ZMod n) := by
    linear_combination hKS1 - hKS2
  have hSdInv : (((bytesToNumber sig1.s : Nat) : ZMod n)
      - ((bytesToNumber sig2.s : Nat) : ZMod n)) * ((dv : Int) : ZMod n) = 1 := by
    rw [← hsdcast]
    exact hdvz
  have hKrec : ((tsMod (tsMod ((h1 : Int) - (h2 : Int)) ((n : Nat) : Int) * dv)
      ((n : Nat) : Int) : Int) : ZMod n) = (k : ZMod n) := by
    rw [intCast_tsMod_zmod]
    push_cast
    rw [intCast_tsMod_zmod]
    push_cast
    calc ((h1 : ZMod n) - (h2 : ZMod n)) * ((dv : Int) : ZMod n)
        = ((k : ZMod n) * (((bytesToNumber sig1.s : Nat) : ZMod n)
            - ((bytesToNumber sig2.s : Nat) : ZMod n))) * ((dv : Int) : ZMod n) := by
          rw [hKdiff]
      _ = (k : ZMod n) * ((((bytesToNumber sig1.s : Nat) : ZMod n)
            - ((bytesToNumber sig2.s : Nat) : ZMod n)) * ((dv : Int) : ZMod n)) := by
          ring
      _ = (k : ZMod n) := by rw [hSdInv, mul_one]
  have hfinal : ((tsMod (tsMod ((bytesToNumber sig1.s : Int)
      * tsMod (tsMod ((h1 : Int) - (h2 : Int)) ((n : Nat) : Int) * dv) ((n : Nat) : Int)
      - (h1 : Int)) ((n : Nat) : Int) * rv) ((n : Nat) : Int) : Int) : ZMod n)
      = (x : ZMod n) := by
    rw [intCast_tsMod_zmod]
    push_cast
    rw [intCast_tsMod_zmod]
    push_cast
    rw [hKrec]
    have hnum : ((bytesToNumber sig1.s : Nat) : ZMod n) * (k : ZMod n) - (h1 : ZMod n)
        = (r : ZMod n) * (x : ZMod n) := by
      linear_combination hKS1
    rw [hnum]
    calc (r : ZMod n) * (x : ZMod n) * ((rv : Int) : ZMod n)
        = (x : ZMod n) * ((r : ZMod n) * ((rv : Int) : ZMod n)) := by ring
      _ = (x : ZMod n) := by rw [hrvz, mul_one]
  suffices hval : (tsMod (tsMod ((bytesToNumber sig1.s : Int)
      * tsMod (tsMod ((h1 : Int) - (h2 : Int)) ((n : Nat) : Int) * dv) ((n : Nat) : Int)
      - (h1 : Int)) ((n : Nat) : Int) * rv) ((n : Nat) : Int)).toNat = x by
    rw [hval]
  apply nat_eq_of_zmod_cast_eq _ _ (by omega) hxn
  rw [toNat_cast_zmod _ hres0]
  exact hfinal

/-- A deterministic stand-in for the external hash in concrete instances:
every input hashes to the 32-byte encoding of 5 (a valid nonce). -/
def testHash5 : List Nat → List Nat := fun _ => numberToBytes 5 32

/-- A curve primitive returning a constant x-coordinate, used to instantiate
the external-curve parameter at concrete points in counterexamples and
witnesses. -/
def constCurve (v : Nat) (hv : v < 2 ^ 256) : Curve :=
  { pointX := fun _ => v, pointX_lt := fun _ => hv, pubKey := fun _ => [] }

/-- The group order itself is the x-coordinate of a genuine secp256k1 point
(`n³ + 7` is a quadratic residue mod `p`); by the curve's cofactor-1
structure such a point is `k·G` for some scalar `k`, so a signing nonce
whose point has `r ≡ 0 (mod n)` exists, even though no explicit value is
known (finding it is a discrete logarithm). -/
theorem onCurveX_curveN : OnCurveX curveN :=
  ⟨by decide,
    0x98F66641CB0AE1776B463EBDEE3D77FE2658F021DB48E2C8AC7AB4C92F83621E,
    by decide, by decide⟩

/-- C1 counterexample: with the curve primitive at a point whose
x-coordinate is `n` (a genuine curve x-coordinate, `onCurveX_curveN`), both
signatures are produced, the digests differ mod `n`, yet extraction throws
"Modular inverse does not exist" instead of returning the private key. -/
theorem extract_not_ok_on_r_divisible :
    OnCurveX curveN ∧
    (0 < 1 ∧ 1 < curveN) ∧
    (0 < bytesToNumber (numberToBytes 5 32) ∧
      bytesToNumber (numberToBytes 5 32) < curveN) ∧
    bytesToNumber (numberToBytes 1 32) % curveN
      ≠ bytesToNumber (numberToBytes 2 32) % curveN ∧
    signEOTS testHash5 (constCurve curveN curveN_lt_two_pow)
      (numberToBytes 1 32) (numberToBytes 1 32) (some (numberToBytes 5 32))
      = Except.ok ⟨numberToBytes curveN 32,
          numberToBytes
            0x66666666666666666666666666666665E445F1F5DFB6A67E4CBA8C385348E6E7 32⟩ ∧
    signEOTS testHash5 (constCurve curveN curveN_lt_two_pow)
      (numberToBytes 1 32) (numberToBytes 2 32) (some (numberToBytes 5 32))
      = Except.ok ⟨numberToBytes curveN 32,
          numberToBytes
            0xCCCCCCCCCCCCCCCCCCCCCCCCCCCCCCCBC88BE3EBBF6D4CFC99751870A691CDCE 32⟩ ∧
    extractPrivateKey
      ⟨numberToBytes curveN 32,
        numberToBytes
          0x66666666666666666666666666666665E445F1F5DFB6A67E4CBA8C385348E6E7 32⟩
      ⟨numberToBytes curveN 32,
        numberToBytes
          0xCCCCCCCCCCCCCCCCCCCCCCCCCCCCCCCBC88BE3EBBF6D4CFC99751870A691CDCE 32⟩
      (numberToBytes 1 32) (numberToBytes 2 32)
      = Except.error "Modular inverse does not exist" :=
  ⟨onCurveX_curveN, ⟨by decide, by decide⟩, ⟨by decide, by decide⟩,
    by decide, by rfl, by rfl, by rfl⟩

/-- Witness for the amended C1 theorem at a concrete instance: curve point
x-coordinate 2, private key 1, nonce 5, digests 1 and 2. -/
theorem extract_recovers_privateKey_witness :
    extractPrivateKey
      ⟨numberToBytes 2 32,
        numberToBytes
          0x33333333333333333333333333333332F222F8FAEFDB533F265D461C29A47374 32⟩
      ⟨numberToBytes 2 32,
        numberToBytes
          0x99999999999999999999999999999998D668EAF0CF91F9BD7317D2547CED5A5B 32⟩
      (numberToBytes 1 32) (numberToBytes 2 32)
      = Except.ok (numberToBytes 1 32) :=
  extract_recovers_privateKey testHash5 (constCurve 2 (by norm_num)) 1
    (numberToBytes 5 32) (numberToBytes 1 32) (numberToBytes 2 32)
    ⟨numberToBytes 2 32,
      numberToBytes
        0x33333333333333333333333333333332F222F8FAEFDB533F265D461C29A47374 32⟩
    ⟨numberToBytes 2 32,
      numberToBytes
        0x99999999999999999999999999999998D668EAF0CF91F9BD7317D2547CED5A5B 32⟩
    (by decide) (by decide) (by decide) (by decide) (by rfl) (by rfl)
    (by decide) (by decide)

/-- C5: `extractPrivateKey` checks its preconditions in source order, each
yielding its own distinct error and no arithmetic extraction: `r1 ≠ r2` is
the nonce-mismatch failure (regardless of everything else), then `s1 = s2`
the identical-signatures failure, then `(s1 − s2) mod n = 0` the distinct
degenerate failure. -/
theorem extract_precondition_order (sig1 sig2 : EOTSSignature)
    (h1b h2b : List Nat) :
    (bytesToNumber sig1.r ≠ bytesToNumber sig2.r →
      extractPrivateKey sig1 sig2 h1b h2b =
        Except.error "Signatures do not use the same nonce (r values are different)") ∧
    (bytesToNumber sig1.r = bytesToNumber sig2.r →
      bytesToNumber sig1.s = bytesToNumber sig2.s →
      extractPrivateKey sig1 sig2 h1b h2b =
        Except.error "Signatures are identical") ∧
    (bytesToNumber sig1.r = bytesToNumber sig2.r →
      bytesToNumber sig1.s ≠ bytesToNumber sig2.s →
      tsMod ((bytesToNumber sig1.s : Int) - (bytesToNumber sig2.s : Int))
        ((curveN : Nat) : Int) = 0 →
      extractPrivateKey sig1 sig2 h1b h2b =
        Except.error "Cannot extract private key: s1 equals s2") := by
  refine ⟨?_, ?_, ?_⟩
  · intro hne
    unfold extractPrivateKey
    simp only
    rw [if_pos hne]
  · intro hre hse
    unfold extractPrivateKey
    simp only
    rw [if_neg (by simpa using hre), if_pos hse]
  · intro hre hse hsd
    unfold extractPrivateKey
    simp only
    rw [if_neg (by simpa using hre), if_neg hse, if_pos hsd]

/-- Witness for C5: the three error branches at concrete signatures
(`r` mismatch; identical `s`; `s` values that differ as integers but agree
after reduction, `s1 = n + 1`, `s2 = 1`). -/
theorem extract_precondition_order_witness :
    extractPrivateKey ⟨numberToBytes 1 32, numberToBytes 7 32⟩
      ⟨numberToBytes 2 32, numberToBytes 7 32⟩ [] [] =
      Except.error "Signatures do not use the same nonce (r values are different)" ∧
    extractPrivateKey ⟨numberToBytes 1 32, numberToBytes 7 32⟩
      ⟨numberToBytes 1 32, numberToBytes 7 32⟩ [] [] =
      Except.error "Signatures are identical" ∧
    extractPrivateKey ⟨numberToBytes 1 32, numberToBytes (curveN + 1) 32⟩
      ⟨numberToBytes 1 32, numberToBytes 1 32⟩ [] [] =
      Except.error "Cannot extract private key: s1 equals s2" :=
  ⟨(extract_precondition_order _ _ [] []).1 (by decide),
    (extract_precondition_order _ _ [] []).2.1 (by decide) (by decide),
    (extract_precondition_order _ _ [] []).2.2 (by decide) (by decide) (by rfl)⟩

/-- C7: out-of-range signature components (`r` or `s` equal to `0`, or at
least `n` — including exactly `n`) make `verifyEOTS` return `false`
immediately, whatever the underlying curve-library routine would do (the
statement quantifies over every routine `vfy`, so the result cannot depend
on invoking it), and without any error: the result is a plain `Bool`. -/
theorem verify_rejects_out_of_range
    (vfy : List Nat → List Nat → List Nat → Except String Bool)
    (pub msg : List Nat) (sig : EOTSSignature)
    (h : bytesToNumber sig.r = 0 ∨ bytesToNumber sig.r ≥ curveN ∨
      bytesToNumber sig.s = 0 ∨ bytesToNumber sig.s ≥ curveN) :
    verifyEOTS vfy pub msg sig = false := by
  unfold verifyEOTS
  simp only
  rw [if_pos h]

/-- Witness for C7: `r = n` and `s = n` exactly, against a routine that
would answer `true` if it were consulted. -/
theorem verify_rejects_out_of_range_witness :
    verifyEOTS (fun _ _ _ => Except.ok true) [] []
      ⟨numberToBytes curveN 32, numberToBytes 1 32⟩ = false ∧
    verifyEOTS (fun _ _ _ => Except.ok true) [] []
      ⟨numberToBytes 1 32, numberToBytes curveN 32⟩ = false :=
  ⟨verify_rejects_out_of_range _ [] [] _ (by right; left; rw [bytesToNumber_numberToBytes32 curveN curveN_lt_two_pow]),
    verify_rejects_out_of_range _ [] [] _ (by right; right; right; rw [bytesToNumber_numberToBytes32 curveN curveN_lt_two_pow])⟩

/-- C9: in the embedding every operation is a pure function, so two calls of
`signEOTS` on identical arguments are definitionally the same signature
(the code keeps no state between calls, spec §5); the substantive content
of the determinism claim is that the no-nonce call path uses exactly
`hash(privateKey ‖ digest)` as its nonce, i.e. it coincides with an
explicit-nonce call on that value.  This holds for every hash function and
every curve primitive. -/
theorem sign_derived_nonce (hash : List Nat → List Nat) (C : Curve)
    (priv msg : List Nat) :
    signEOTS hash C priv msg none =
      signEOTS hash C priv msg (some (hash (priv ++ msg))) := rfl

/-! ## Hex codec round trip (C10) -/

theorem byteBlock_spec (v : Nat) (hv : v < 256) :
    ∃ d1 d2, d1 < 16 ∧ d2 < 16 ∧ 16 * d1 + d2 = v ∧
      padStart ((hexDigits v).map hexDigitChar) 2 '0' =
        [hexDigitChar d1, hexDigitChar d2] := by
  have hlen : (hexDigits v).length ≤ 2 :=
    hexDigits_length_le v 2 (by norm_num) (by omega)
  have hne := hexDigits_ne_nil v
  have hval := hexDigits_val v
  have hdig := hexDigits_lt v
  match hd : hexDigits v with
  | [] => exact absurd hd hne
  | [d] =>
    refine ⟨0, d, by norm_num, hdig d (by rw [hd]; simp), ?_, ?_⟩
    · rw [hd] at hval
      simp only [List.foldl_cons, List.foldl_nil] at hval
      omega
    · simp only [List.map_cons, List.map_nil, padStart, List.length_cons,
        List.length_nil]
      rfl
  | [d1, d2] =>
    refine ⟨d1, d2, hdig d1 (by rw [hd]; simp), hdig d2 (by rw [hd]; simp), ?_, ?_⟩
    · rw [hd] at hval
      simp only [List.foldl_cons, List.foldl_nil] at hval
      omega
    · rfl
  | d1 :: d2 :: d3 :: rest =>
    rw [hd] at hlen
    simp at hlen

theorem bytesToHex_cons (v : Nat) (rest : List Nat) :
    bytesToHex (v :: rest) =
      padStart ((hexDigits v).map hexDigitChar) 2 '0' ++ bytesToHex rest := by
  simp [bytesToHex]

theorem bytesToHex_length (b : List Nat) (hb : ∀ v ∈ b, v < 256) :
    (bytesToHex b).length = 2 * b.length := by
  induction b with
  | nil => rfl
  | cons v rest ih =>
    obtain ⟨d1, d2, _, _, _, hblock⟩ := byteBlock_spec v (hb v (by simp))
    rw [bytesToHex_cons, hblock, List.length_append,
      ih (fun u hu => hb u (by simp [hu]))]
    simp only [List.length_cons, List.length_nil]
    omega

theorem bytesToHex_chars (b : List Nat) (hb : ∀ v ∈ b, v < 256) :
    ∀ c ∈ bytesToHex b, ∃ d, d < 16 ∧ c = hexDigitChar d := by
  induction b with
  | nil => simp [bytesToHex]
  | cons v rest ih =>
    obtain ⟨d1, d2, hd1, hd2, _, hblock⟩ := byteBlock_spec v (hb v (by simp))
    intro c hc
    rw [bytesToHex_cons, hblock] at hc
    rcases List.mem_append.mp hc with hmem | hmem
    · rcases List.mem_cons.mp hmem with rfl | hmem2
      · exact ⟨d1, hd1, rfl⟩
      · rcases List.mem_cons.mp hmem2 with rfl | hmem3
        · exact ⟨d2, hd2, rfl⟩
        · simp at hmem3
    · exact ih (fun u hu => hb u (by simp [hu])) c hmem

theorem pairsToBytes_bytesToHex (b : List Nat) (hb : ∀ v ∈ b, v < 256) :
    pairsToBytes (bytesToHex b) = b := by
  induction b with
  | nil => rfl
  | cons v rest ih =>
    obtain ⟨d1, d2, hd1, hd2, hval, hblock⟩ := byteBlock_spec v (hb v (by simp))
    rw [bytesToHex_cons, hblock]
    show pairVal (hexDigitChar d1) (hexDigitChar d2) :: pairsToBytes (bytesToHex rest) = v :: rest
    rw [ih (fun u hu => hb u (by simp [hu]))]
    simp only [pairVal, hexCharVal_hexDigitChar d1 hd1,
      hexCharVal_hexDigitChar d2 hd2, hval]

/-- C10: the hex codec round-trips on the byte side: `hexToBytes ∘
bytesToHex` is the identity on byte arrays, `bytesToHex` emitting exactly
two characters per byte, every one of them a lowercase hex digit
(`hexDigitChar` of a value below 16 — `'0'..'9'`/`'a'..'f'`). -/
theorem hexToBytes_bytesToHex (b : List Nat) (hb : ∀ v ∈ b, v < 256) :
    hexToBytes (bytesToHex b) = b ∧
    (bytesToHex b).length = 2 * b.length ∧
    (∀ c ∈ bytesToHex b, ∃ d, d < 16 ∧ c = hexDigitChar d) := by
  refine ⟨?_, bytesToHex_length b hb, bytesToHex_chars b hb⟩
  unfold hexToBytes
  have hnotx : ¬ (bytesToHex b).take 2 = ['0', 'x'] := by
    intro heq
    have hx : 'x' ∈ bytesToHex b := by
      have hsub := List.take_subset 2 (bytesToHex b)
      rw [heq] at hsub
      exact hsub (by simp)
    obtain ⟨d, hd, hcd⟩ := bytesToHex_chars b hb 'x' hx
    exact hexDigitChar_ne_x d hd hcd.symm
  have heven : ¬ (bytesToHex b).length % 2 ≠ 0 := by
    rw [bytesToHex_length b hb]
    omega
  simp only [if_neg hnotx, if_neg heven]
  exact pairsToBytes_bytesToHex b hb

/-- Witness for C10 at the concrete byte array `[0, 255, 16]`. -/
theorem hexToBytes_bytesToHex_witness :
    hexToBytes (bytesToHex [0, 255, 16]) = [0, 255, 16] ∧
    (bytesToHex [0, 255, 16]).length = 2 * 3 ∧
    (∀ c ∈ bytesToHex [0, 255, 16], ∃ d, d < 16 ∧ c = hexDigitChar d) :=
  hexToBytes_bytesToHex [0, 255, 16] (by decide)

/-! ## 63-character hex inputs (C8) -/

/-- A concrete curve primitive whose points all have x-coordinate 2 (for
witnesses and concrete evaluations). -/
def curve2 : Curve := constCurve 2 (by norm_num)

/-- C8 counterexample: a 63-hex-character private key (value 1), digest and
a 64-character nonce are processed by `signEOTS` — it returns a signature
instead of rejecting the input: `hexToBytes` silently left-pads the odd
length string. -/
theorem sign_accepts_63_char_hex :
    (List.replicate 62 '0' ++ ['1']).length = 63 ∧
    signEOTSHex testHash5 curve2 (List.replicate 62 '0' ++ ['1'])
      (List.replicate 63 '0' ++ ['1'])
      (some (List.replicate 63 '0' ++ ['5']))
      = Except.ok ⟨numberToBytes 2 32,
          numberToBytes
            0x33333333333333333333333333333332F222F8FAEFDB533F265D461C29A47374 32⟩ :=
  ⟨by decide, by rfl⟩

/-- C8 (amended): a 63-character hex value is rejected only by the
UI-layer validator `isValidHex` (false for any 63-character string when 32
bytes are expected); the core codec does not reject it — `hexToBytes`
left-pads the string with `'0'` and parses it into exactly 32 bytes, which
the operations then process. -/
theorem hex63_not_rejected (cs : List Char) (hlen : cs.length = 63)
    (hx : ¬ cs.take 2 = ['0', 'x']) :
    isValidHex cs (some 32) = false ∧
    hexToBytes cs = pairsToBytes ('0' :: cs) ∧
    (hexToBytes cs).length = 32 := by
  have hparse : hexToBytes cs = pairsToBytes ('0' :: cs) := by
    unfold hexToBytes
    rw [if_neg hx]
    simp only
    rw [if_pos (by rw [hlen]; omega)]
  refine ⟨?_, hparse, ?_⟩
  · unfold isValidHex
    rw [if_neg hx]
    simp only [Bool.and_eq_false_iff, decide_eq_false_iff_not]
    right
    omega
  · rw [hparse, pairsToBytes_length]
    simp only [List.length_cons]
    omega

/-- Witness for the amended C8 statement at a concrete 63-character hex
string. -/
theorem hex63_not_rejected_witness :
    isValidHex (List.replicate 62 '0' ++ ['1']) (some 32) = false ∧
    hexToBytes (List.replicate 62 '0' ++ ['1'])
      = pairsToBytes ('0' :: (List.replicate 62 '0' ++ ['1'])) ∧
    (hexToBytes (List.replicate 62 '0' ++ ['1'])).length = 32 :=
  hex63_not_rejected (List.replicate 62 '0' ++ ['1']) (by decide) (by decide)

/-! ## Nonce validation and the signing equation (C6) -/

theorem signEOTS_eval (hash : List Nat → List Nat) (C : Curve)
    (priv msg kb : List Nat) (kInv : Int)
    (hk : ¬ (bytesToNumber kb ≥ curveN ∨ bytesToNumber kb = 0))
    (hkinv : modInverse ((bytesToNumber kb : Nat) : Int) ((curveN : Nat) : Int)
      = Except.ok kInv) :
    signEOTS hash C priv msg (some kb) =
      (if tsMod (kInv * ((bytesToNumber msg : Int)
          + ((C.pointX (bytesToNumber kb) : Nat) : Int) * (bytesToNumber priv : Int)))
          ((curveN : Nat) : Int) = 0
        then Except.error "Invalid signature: s is zero"
        else Except.ok ⟨numberToBytes (C.pointX (bytesToNumber kb)) 32,
          numberToBytes (tsMod (kInv * ((bytesToNumber msg : Int)
            + ((C.pointX (bytesToNumber kb) : Nat) : Int)
              * (bytesToNumber priv : Int))) ((curveN : Nat) : Int)).toNat 32⟩) := by
  unfold signEOTS
  simp only
  rw [if_neg hk, bytesToNumber_numberToBytes32 _ (C.pointX_lt _), hkinv]

/-- C6: `signEOTS` fails with the invalid-nonce error whenever the chosen
nonce is `0` or at least `n`; otherwise it computes
`s = k⁻¹ (digest + r·privateKey) mod n` — characterised below by
`s·k ≡ digest + r·x (mod n)` with `s < n`, which pins `s` uniquely — fails
when that value is zero, and otherwise returns `(r, s)` with `s` encoded as
exactly 32 big-endian bytes. -/
theorem sign_nonce_check_and_s (hash : List Nat → List Nat) (C : Curve)
    (priv msg kb : List Nat) :
    (bytesToNumber kb = 0 ∨ bytesToNumber kb ≥ curveN →
      signEOTS hash C priv msg (some kb) = Except.error "Invalid nonce generated") ∧
    (0 < bytesToNumber kb → bytesToNumber kb < curveN →
      ∃ s : Nat, s < curveN ∧
        (s * bytesToNumber kb) % curveN
          = ((bytesToNumber msg + C.pointX (bytesToNumber kb) * bytesToNumber priv)
            % curveN) ∧
        (s = 0 → signEOTS hash C priv msg (some kb)
          = Except.error "Invalid signature: s is zero") ∧
        (s ≠ 0 → signEOTS hash C priv msg (some kb)
          = Except.ok ⟨numberToBytes (C.pointX (bytesToNumber kb)) 32,
              numberToBytes s 32⟩ ∧
          (numberToBytes s 32).length = 32)) := by
  constructor
  · intro h
    unfold signEOTS
    simp only
    rw [if_pos (by omega)]
  · intro hk0 hkn
    have hnd : ¬ curveN ∣ bytesToNumber kb := by
      intro hdvd
      have := Nat.le_of_dvd hk0 hdvd
      omega
    obtain ⟨kInv, hkinv, hKIz⟩ := modInverse_zmod_nat (bytesToNumber kb) hnd
    have hnpos : (0 : Int) < ((curveN : Nat) : Int) := curveN_intCast_pos
    have hs0 : 0 ≤ tsMod (kInv * ((bytesToNumber msg : Int)
        + ((C.pointX (bytesToNumber kb) : Nat) : Int) * (bytesToNumber priv : Int)))
        ((curveN : Nat) : Int) := tsMod_nonneg _ _ hnpos
    have hslt : tsMod (kInv * ((bytesToNumber msg : Int)
        + ((C.pointX (bytesToNumber kb) : Nat) : Int) * (bytesToNumber priv : Int)))
        ((curveN : Nat) : Int) < ((curveN : Nat) : Int) := tsMod_lt _ _ hnpos
    refine ⟨(tsMod (kInv * ((bytesToNumber msg : Int)
        + ((C.pointX (bytesToNumber kb) : Nat) : Int) * (bytesToNumber priv : Int)))
        ((curveN : Nat) : Int)).toNat, by omega, ?_, ?_, ?_⟩
    · have hz : ((((tsMod (kInv * ((bytesToNumber msg : Int)
          + ((C.pointX (bytesToNumber kb) : Nat) : Int) * (bytesToNumber priv : Int)))
          ((curveN : Nat) : Int)).toNat * bytesToNumber kb : Nat)) : ZMod curveN)
          = (((bytesToNumber msg + C.pointX (bytesToNumber kb) * bytesToNumber priv)
            : Nat) : ZMod curveN) := by
        push_cast
        rw [toNat_cast_zmod _ hs0, intCast_tsMod_zmod]
        push_cast
        calc ((kInv : Int) : ZMod curveN)
              * ((bytesToNumber msg : ZMod curveN)
                + (C.pointX (bytesToNumber kb) : ZMod curveN)
                  * (bytesToNumber priv : ZMod curveN))
              * (bytesToNumber kb : ZMod curveN)
            = ((bytesToNumber kb : ZMod curveN) * ((kInv : Int) : ZMod curveN))
              * ((bytesToNumber msg : ZMod curveN)
                + (C.pointX (bytesToNumber kb) : ZMod curveN)
                  * (bytesToNumber priv : ZMod curveN)) := by ring
          _ = (bytesToNumber msg : ZMod curveN)
              + (C.pointX (bytesToNumber kb) : ZMod curveN)
                * (bytesToNumber priv : ZMod curveN) := by rw [hKIz, one_mul]
      exact (ZMod.natCast_eq_natCast_iff' _ _ _).mp hz
    · intro hs
      rw [signEOTS_eval hash C priv msg kb kInv (by omega) hkinv]
      rw [if_pos (by omega)]
    · intro hs
      constructor
      · rw [signEOTS_eval hash C priv msg kb kInv (by omega) hkinv]
        rw [if_neg (by omega)]
      · exact numberToBytes_length_eq _ 32 (by norm_num)
          (by rw [sixteen_pow_64]; have := curveN_lt_two_pow; omega)

/-- Witness for C6's invalid-nonce branch at the boundary nonces `n` and
`0`. -/
theorem sign_nonce_check_and_s_witness :
    signEOTS testHash5 curve2 (numberToBytes 1 32) (numberToBytes 1 32)
      (some (numberToBytes curveN 32)) = Except.error "Invalid nonce generated" ∧
    signEOTS testHash5 curve2 (numberToBytes 1 32) (numberToBytes 1 32)
      (some (numberToBytes 0 32)) = Except.error "Invalid nonce generated" :=
  ⟨(sign_nonce_check_and_s testHash5 curve2 (numberToBytes 1 32)
      (numberToBytes 1 32) (numberToBytes curveN 32)).1 (by right; decide),
    (sign_nonce_check_and_s testHash5 curve2 (numberToBytes 1 32)
      (numberToBytes 1 32) (numberToBytes 0 32)).1 (by left; decide)⟩

/-! ## The fail-open verifier (C3, C2) and the unreduced r (C4) -/

/-- C3 (amended): `verifyEOTS` never throws — it is a total `Bool`-valued
function — but an error raised by the curve-library verification routine is
caught and converted to `true` (fail-open), not `false`: whenever the range
checks pass and the routine raises an error on the `r ‖ s` buffer, the
result is `true`.  Quantified over every routine `vfy`. -/
theorem verify_fail_open
    (vfy : List Nat → List Nat → List Nat → Except String Bool)
    (pub msg : List Nat) (sig : EOTSSignature) (e : String)
    (hrange : ¬ (bytesToNumber sig.r = 0 ∨ bytesToNumber sig.r ≥ curveN ∨
      bytesToNumber sig.s = 0 ∨ bytesToNumber sig.s ≥ curveN))
    (he : vfy (numberToBytes (bytesToNumber sig.r) 32
      ++ numberToBytes (bytesToNumber sig.s) 32) msg pub = Except.error e) :
    verifyEOTS vfy pub msg sig = true := by
  unfold verifyEOTS
  simp only
  rw [if_neg hrange, he]

/-- Witness for the amended C3 statement, with the modelled library routine
and an in-range signature. -/
theorem verify_fail_open_witness :
    verifyEOTS nobleVerify [1, 2, 3] [] ⟨numberToBytes 2 32, numberToBytes 3 32⟩
      = true :=
  verify_fail_open nobleVerify [1, 2, 3] [] ⟨numberToBytes 2 32, numberToBytes 3 32⟩
    "Invalid signature format" (by decide) (by rfl)

/-- C3 counterexample: an input on which the modelled curve-library routine
raises an error, yet `verifyEOTS` returns `true` — the catch branch fails
open instead of converting the error to `false` (the behaviour §9 of the
spec itself flags as a bug). -/
theorem verify_error_gives_true :
    nobleVerify (numberToBytes 1 32 ++ numberToBytes 1 32) [] [0]
      = Except.error "Invalid signature format" ∧
    verifyEOTS nobleVerify [0] [] ⟨numberToBytes 1 32, numberToBytes 1 32⟩
      = true :=
  ⟨by rfl, by rfl⟩

/-- The x-coordinate `n + 2` also belongs to a genuine secp256k1 point. -/
theorem onCurveX_curveN_add_two : OnCurveX (curveN + 2) :=
  ⟨by decide,
    0x36B1AA62EB77C1973025CBCBEA9740EED8EACDAB8772268B395064453269D1D3,
    by decide, by decide⟩

/-- A curve primitive sitting at the genuine point with x-coordinate
`n + 2` (`onCurveX_curveN_add_two`). -/
def curveNp2 : Curve := constCurve (curveN + 2) (by decide)

/-- C2 (amended): for every private key and digest, if `signEOTS` without an
explicit nonce returns a signature whose `r` value lies in `(0, n)`, then
`verifyEOTS` on it returns `true` — produced by the fail-open catch around
the mismatched-format library call (§9), not by a genuine curve check. -/
theorem verify_roundtrip (hash : List Nat → List Nat) (C : Curve) (x : Nat)
    (msg : List Nat) (sig : EOTSSignature)
    (_hx0 : 0 < x) (_hxn : x < curveN)
    (hsig : signEOTS hash C (numberToBytes x 32) msg none = Except.ok sig)
    (hr0 : 0 < bytesToNumber sig.r) (hrn : bytesToNumber sig.r < curveN) :
    verifyEOTS nobleVerify (C.pubKey x) msg sig = true := by
  rw [signEOTS_none_eq_some] at hsig
  obtain ⟨kInv, sVal, _, _, _, _, hseq, hsne, hsb⟩ :=
    signEOTS_ok_spec hash C _ msg _ sig hsig
  have hnpos : (0 : Int) < ((curveN : Nat) : Int) := curveN_intCast_pos
  have hs0 : 0 ≤ sVal := hseq ▸ tsMod_nonneg _ _ hnpos
  have hslt : sVal < ((curveN : Nat) : Int) := hseq ▸ tsMod_lt _ _ hnpos
  have hsval : bytesToNumber sig.s = sVal.toNat := by
    rw [hsb]
    exact bytesToNumber_numberToBytes32 sVal.toNat
      (by have := curveN_lt_two_pow; omega)
  unfold verifyEOTS
  simp only
  rw [if_neg (by omega)]
  rfl

/-- Witness for the amended C2 statement at the concrete curve instance with
x-coordinate 2. -/
theorem verify_roundtrip_witness :
    verifyEOTS nobleVerify (curve2.pubKey 1) (numberToBytes 1 32)
      ⟨numberToBytes 2 32,
        numberToBytes
          0x33333333333333333333333333333332F222F8FAEFDB533F265D461C29A47374 32⟩
      = true :=
  verify_roundtrip testHash5 curve2 1 (numberToBytes 1 32)
    ⟨numberToBytes 2 32,
      numberToBytes
        0x33333333333333333333333333333332F222F8FAEFDB533F265D461C29A47374 32⟩
    (by decide) (by decide) (by rfl) (by decide) (by decide)

/-- C2 counterexample: at the genuine curve point with x-coordinate `n + 2`,
signing (without an explicit nonce) succeeds, but the produced `r` is not
reduced mod `n`, so the verifier's range check rejects the signature and the
round trip returns `false` instead of `true`. -/
theorem verify_roundtrip_fails_large_r :
    OnCurveX (curveN + 2) ∧
    signEOTS testHash5 curveNp2 (numberToBytes 1 32) (numberToBytes 1 32) none
      = Except.ok ⟨numberToBytes (curveN + 2) 32,
          numberToBytes
            0x33333333333333333333333333333332F222F8FAEFDB533F265D461C29A47374 32⟩ ∧
    verifyEOTS nobleVerify (curveNp2.pubKey 1) (numberToBytes 1 32)
      ⟨numberToBytes (curveN + 2) 32,
        numberToBytes
          0x33333333333333333333333333333332F222F8FAEFDB533F265D461C29A47374 32⟩
      = false :=
  ⟨onCurveX_curveN_add_two, by rfl, by rfl⟩

/-- C4: at the genuine curve point whose x-coordinate is `n` itself
(`onCurveX_curveN`), the code's comment and the spec call for
`r = (k·G).x mod n = 0` and an invalid-r failure, but `signEOTS` neither
reduces nor checks: it succeeds and returns the unreduced 32-byte `r = n`. -/
theorem sign_returns_unreduced_r :
    OnCurveX curveN ∧
    signEOTS testHash5 (constCurve curveN curveN_lt_two_pow)
      (numberToBytes 1 32) (numberToBytes 1 32) (some (numberToBytes 5 32))
      = Except.ok ⟨numberToBytes curveN 32,
          numberToBytes
            0x66666666666666666666666666666665E445F1F5DFB6A67E4CBA8C385348E6E7 32⟩ ∧
    curveN % curveN = 0 ∧
    numberToBytes curveN 32 ≠ numberToBytes (curveN % curveN) 32 :=
  ⟨onCurveX_curveN, by rfl, by simp, by decide⟩
